import Mathlib

/-!
Verification model of the `ttl-cache` Go package (`ttl-cache.go`, `errs.go`).

The cache owns a keyed store (`map[key]*cacheEntry`) and a housekeeping
index `ttlHK []*cacheEntry` ordered by expiration.  Both structures hold
pointers to the same entry objects; an entry's pointer is created once, when
its key is first inserted, and is mutated in place on update.  We therefore
model an index reference by the entry's key, resolved through the store:
mutating the store entry is visible through the index exactly as pointer
sharing makes it in Go.  The store itself (an unordered Go map with unique
keys) is modeled as an association list.

Time is modeled at second resolution: every operation that reads the clock
takes the current Unix time `now : ℕ` (seconds) explicitly.  Durations
(`time.Duration`) are modeled as integers of seconds, keeping their sign so
that the constructor's `<= 0` validations are expressible.
-/

/-- Keys of the cache: Go declares `type key string`. -/
abbrev Key := String

/-- Translation of Go `cacheEntry`: `value interface{}` becomes a type
parameter, `key key` the entry's own key, and `exp uint32` a natural number
(always below 2^32, being produced by `getExp`). -/
structure CacheEntry (α : Type) where
  value : α
  key : Key
  exp : ℕ
deriving DecidableEq

/-- Error values of the package.  Go builds them with `fmt.Errorf`, so they
are distinguished by their message shape and argument; we model each message
shape as a constructor carrying the formatted argument.  `keyNotFound` is the
one error whose Go constructor (`newKeyNotFoundErr`, called in `Get`) is not
defined under the sources; the spec's error taxonomy lists `KeyNotFound` as
the failure of a `Get` miss carrying the key. -/
inductive CacheErr where
  | invalidSweepPeriod (invalidDur : ℤ)
  | invalidTTL (ttl : ℤ)
  | invalidSize (size : ℕ)
  | badUpdateRequest (invalidKey : Key)
  | keyNotFound (k : Key)
deriving DecidableEq

/-- Translation of `newInvalidSweepPeriodErr` (errs.go). -/
def newInvalidSweepPeriodErr (invalidDur : ℤ) : CacheErr :=
  .invalidSweepPeriod invalidDur

/-- Translation of `newInvalidTTLErr` (errs.go). -/
def newInvalidTTLErr (invalidTTL : ℤ) : CacheErr :=
  .invalidTTL invalidTTL

/-- Translation of `newInvalidSizeErr` (errs.go). -/
def newInvalidSizeErr (invalidSize : ℕ) : CacheErr :=
  .invalidSize invalidSize

/-- Translation of `newBadUpdateRequestErr` (errs.go). -/
def newBadUpdateRequestErr (invalidKey : Key) : CacheErr :=
  .badUpdateRequest invalidKey

/-- Modelled from the spec: `newKeyNotFoundErr` is called by `Get` but defined
nowhere under the sources; the spec lists `KeyNotFound` ("Get miss") carrying
the missing key as the corresponding runtime failure. -/
def newKeyNotFoundErr (k : Key) : CacheErr :=
  .keyNotFound k

deriving instance DecidableEq for Except

/-- Lookup in the store association list (Go map read `c.cache[key]`). -/
def storeLookup {α : Type} (s : List (Key × CacheEntry α)) (k : Key) :
    Option (CacheEntry α) :=
  (s.find? (fun p => p.1 == k)).map (·.2)

/-- Expiration of the entry a given index reference points at, resolved
through the store (Go reads it as `entryPointer.exp`); `0` for a dangling
reference, which consistent states never contain. -/
def expOfStore {α : Type} (s : List (Key × CacheEntry α)) (k : Key) : ℕ :=
  ((storeLookup s k).map (·.exp)).getD 0

/-- In-place mutation of the entry owned by the store at key `k`
(Go: `existingValue.value = ...; existingValue.exp = ...` through the map's
pointer).  The entry object is updated where it sits; its key field and the
positions of all entries are untouched. -/
def storeMutate {α : Type} (s : List (Key × CacheEntry α)) (k : Key)
    (v : α) (e : ℕ) : List (Key × CacheEntry α) :=
  match s with
  | [] => []
  | p :: rest =>
    if p.1 == k then (p.1, { p.2 with value := v, exp := e }) :: rest
    else p :: storeMutate rest k v e

/-- Removal of the binding for `k` from the store (Go `delete(c.cache, k)`). -/
def storeDelete {α : Type} (s : List (Key × CacheEntry α)) (k : Key) :
    List (Key × CacheEntry α) :=
  match s with
  | [] => []
  | p :: rest => if p.1 == k then rest else p :: storeDelete rest k

/-- Recursion core of Go's `sort.Search`: the interval `[i, j)` halves at
midpoint `(i+j)/2`, narrowing to the left half when `f` holds there and to
the right half otherwise, until `i = j`.  The width shrinks by at least one
per step, so running it with `fuel = j - i` computes the loop's result by
structural recursion. -/
def goSearchAux (f : ℕ → Bool) : ℕ → ℕ → ℕ → ℕ
  | 0, i, _ => i
  | fuel + 1, i, j =>
    if i < j then
      if f ((i + j) / 2) then goSearchAux f fuel i ((i + j) / 2)
      else goSearchAux f fuel ((i + j) / 2 + 1) j
    else i

/-- Translation of Go's `sort.Search(n, f)` binary search over `[i, j)` (the
source calls it with `i = 0`, `j = n`). -/
def goSearch (f : ℕ → Bool) (i j : ℕ) : ℕ :=
  goSearchAux f (j - i) i j

/-- Bubbling pass of Go's insertion sort, acting on the reversed sorted
prefix: the incoming element `x` is swapped past each previous element `p`
(the head of the reversed prefix) while `less x p` holds, exactly the inner
loop `for j := i; j > 0 && data.Less(j, j-1); j-- { data.Swap(j, j-1) }`. -/
def goBubble {α : Type} (less : α → α → Bool) (x : α) : List α → List α
  | [] => [x]
  | p :: rest => if less x p then p :: goBubble less x rest else x :: p :: rest

/-- Semantics of the `sort.Slice(c.ttlHK, less)` call in `updateCacheEntry`:
for the slice lengths arising below, Go's sort runs its insertion sort
(`sort.Slice` dispatches to insertion sort for segments shorter than 13
elements), modeled here element-wise; `less` receives the elements at the two
compared indices, first argument the higher index. -/
def goInsertionSort {α : Type} (less : α → α → Bool) (xs : List α) : List α :=
  (xs.foldl (fun racc x => goBubble less x racc) []).reverse

/-- Translation of Go `TTLCache`.  `cache` is the keyed store; `ttlHK` the
expiration index, holding references (keys) into the store; `sweepTicker`
keeps the validated sweep period the Go ticker was built from. -/
structure TTLCache (α : Type) where
  defaultTTL : ℤ
  cache : List (Key × CacheEntry α)
  sweepTicker : ℤ
  ttlHK : List Key
deriving DecidableEq

/-- Translation of `getExp`: Go computes `uint32(time.Now().Add(ttl).Unix())`.
With time at second resolution this is the current Unix time plus the TTL;
the `int64` to `uint32` conversion keeps the low 32 bits, i.e. the value
modulo 2^32 (`Int.emod`, non-negative for the positive modulus). -/
def getExp (now : ℕ) (ttl : ℤ) : ℕ :=
  (((now : ℤ) + ttl) % 4294967296).toNat

/-- Translation of `newCacheEntry`. -/
def newCacheEntry {α : Type} (k : Key) (value : α) (exp : ℕ) : CacheEntry α :=
  { key := k, value := value, exp := exp }

/-- Translation of `NewTTLCache`: validates `numSize <= 0` (a `uint`, so this
means zero), then `defaultTTL <= 0`, then `sweepPeriod <= 0`, in that order,
failing with the corresponding error; otherwise builds the cache with empty
store and index. -/
def NewTTLCache (α : Type) (numSize : ℕ) (defaultTTL sweepPeriod : ℤ) :
    Except CacheErr (TTLCache α) :=
  if numSize ≤ 0 then .error (newInvalidSizeErr numSize)
  else if defaultTTL ≤ 0 then .error (newInvalidTTLErr defaultTTL)
  else if sweepPeriod ≤ 0 then .error (newInvalidSweepPeriodErr sweepPeriod)
  else .ok { defaultTTL := defaultTTL, cache := [], sweepTicker := sweepPeriod,
             ttlHK := [] }

/-- Expiration of the entry referenced by `k`, read through the cache's
store (dereference of the shared entry pointer). -/
def TTLCache.expOf {α : Type} (c : TTLCache α) (k : Key) : ℕ :=
  expOfStore c.cache k

/-- Translation of `Get`: a store read only.  Go returns the pair
`(value, error)` and never writes the receiver, which the model states by
returning the receiver unchanged alongside the result. -/
def TTLCache.Get {α : Type} (c : TTLCache α) (k : Key) :
    Except CacheErr α × TTLCache α :=
  match storeLookup c.cache k with
  | none => (.error (newKeyNotFoundErr k), c)
  | some entry => (.ok entry.value, c)

/-- Translation of `updateCacheEntry`: re-lookup of the key (error
`newBadUpdateRequestErr` when absent), in-place mutation of the owned entry's
`value` and `exp`, then the `sort.Slice` call on the index.  Its comparator
is the source's literal `c.ttlHK[i].exp >= c.ttlHK[i].exp` — both sides index
`i`, the first argument — hence it compares every element's expiration with
itself. -/
def TTLCache.updateCacheEntry {α : Type} (c : TTLCache α) (entry : CacheEntry α) :
    Except CacheErr (TTLCache α) :=
  match storeLookup c.cache entry.key with
  | none => .error (newBadUpdateRequestErr entry.key)
  | some _ =>
    let cache2 := storeMutate c.cache entry.key entry.value entry.exp
    .ok { c with
          cache := cache2,
          ttlHK := goInsertionSort
            (fun a _ => decide (expOfStore cache2 a ≥ expOfStore cache2 a))
            c.ttlHK }

/-- Translation of `insertNewHKEntry`: `sort.Search` for the first index whose
referenced expiration is `>= entry.exp`, then append-a-slot / shift-right /
place, which inserts the new entry's reference at that index. -/
def TTLCache.insertNewHKEntry {α : Type} (c : TTLCache α) (entry : CacheEntry α) :
    TTLCache α :=
  let i := goSearch
    (fun i => decide (entry.exp ≤ expOfStore c.cache (c.ttlHK.getD i "")))
    0 c.ttlHK.length
  { c with ttlHK := c.ttlHK.insertIdx i entry.key }

/-- Effective TTL used by `Set` (its opening `ttl :=` computation): the first
variadic override when present and positive, else `defaultTTL`. -/
def TTLCache.effTTL {α : Type} (c : TTLCache α) (optTTL : List ℤ) : ℤ :=
  match optTTL with
  | t :: _ => if 0 < t then t else c.defaultTTL
  | [] => c.defaultTTL

/-- Translation of `Set`: a fresh entry value is built with `getExp` of the
effective TTL; an existing key delegates to `updateCacheEntry`, a new key is
stored (`c.cache[entry.key] = entry`, the map being unordered we prepend)
and its reference inserted into the index. -/
def TTLCache.Set {α : Type} (c : TTLCache α) (now : ℕ) (k : Key) (value : α)
    (optTTL : List ℤ) : Except CacheErr (TTLCache α) :=
  let entry := newCacheEntry k value (getExp now (c.effTTL optTTL))
  if (storeLookup c.cache k).isSome then c.updateCacheEntry entry
  else
    .ok (({ c with cache := (entry.key, entry) :: c.cache }).insertNewHKEntry entry)

/-- Modelled from the spec: the repository exposes no `Sweep` method under the
sources (only the `sweepTicker` field); §4.3 defines it as "while the Index is
non-empty and `PeekFront().expiresAt <= now`, `PopFront()` and remove the
corresponding key from the Store", terminating at the first fresh front.
This helper runs that loop over index and store. -/
def sweepStep {α : Type} (now : ℕ) :
    List Key → List (Key × CacheEntry α) → List Key × List (Key × CacheEntry α)
  | [], s => ([], s)
  | k :: rest, s =>
    if expOfStore s k ≤ now then sweepStep now rest (storeDelete s k)
    else (k :: rest, s)

/-- Modelled from the spec: `Sweep() -> void` (§4.3, §6) — the front-popping
loop of `sweepStep` applied to the cache's index and store; it returns no
error. -/
def TTLCache.Sweep {α : Type} (c : TTLCache α) (now : ℕ) : TTLCache α :=
  { c with ttlHK := (sweepStep now c.ttlHK c.cache).1,
           cache := (sweepStep now c.ttlHK c.cache).2 }

/-- Keys owned by the store, in store order. -/
def TTLCache.StoreKeys {α : Type} (c : TTLCache α) : List Key :=
  c.cache.map Prod.fst

/-- Consistency of the two structures: the multiset of index references
equals the multiset of store keys, and store keys are duplicate-free (a Go
map binds each key once). -/
def TTLCache.Consistent {α : Type} (c : TTLCache α) : Prop :=
  c.StoreKeys.Perm c.ttlHK ∧ c.StoreKeys.Nodup

/-- Sortedness of the expiration index, as the spec states it: every adjacent
pair of index positions has non-decreasing referenced expirations. -/
def TTLCache.IndexSorted {α : Type} (c : TTLCache α) : Prop :=
  List.Chain' (· ≤ ·) (c.ttlHK.map c.expOf)

/-- States reachable from a freshly constructed cache by `Set` and `Get`. -/
inductive Reachable {α : Type} : TTLCache α → Prop where
  | new (numSize : ℕ) (defaultTTL sweepPeriod : ℤ) (c : TTLCache α) :
      NewTTLCache α numSize defaultTTL sweepPeriod = .ok c → Reachable c
  | set (c : TTLCache α) (now : ℕ) (k : Key) (v : α) (optTTL : List ℤ)
      (c2 : TTLCache α) : Reachable c → c.Set now k v optTTL = .ok c2 →
      Reachable c2
  | get (c : TTLCache α) (k : Key) : Reachable c → Reachable (c.Get k).2

/-! ### Concrete states used as evaluation scenarios

The scenario of spec §8: capacity hint 10, default TTL 30, sweep interval 5.
All states below are reached from `sample0` by the `Set` equations proved in
the theorems that use them. -/

/-- The freshly constructed cache `NewTTLCache String 10 30 5`. -/
def sample0 : TTLCache String :=
  { defaultTTL := 30, cache := [], sweepTicker := 5, ttlHK := [] }

/-- State after `Set "a" "x" (ttl 10)` at time 0. -/
def sA : TTLCache String :=
  { defaultTTL := 30, cache := [("a", ⟨"x", "a", 10⟩)], sweepTicker := 5,
    ttlHK := ["a"] }

/-- State after a further `Set "b" "y" (ttl 20)` at time 0. -/
def sAB : TTLCache String :=
  { defaultTTL := 30,
    cache := [("b", ⟨"y", "b", 20⟩), ("a", ⟨"x", "a", 10⟩)], sweepTicker := 5,
    ttlHK := ["a", "b"] }

/-- State after a further `Set "c" "z" (ttl 30)` at time 0. -/
def sABC : TTLCache String :=
  { defaultTTL := 30,
    cache := [("c", ⟨"z", "c", 30⟩), ("b", ⟨"y", "b", 20⟩),
              ("a", ⟨"x", "a", 10⟩)],
    sweepTicker := 5, ttlHK := ["a", "b", "c"] }

/-- State the code reaches from `sABC` by `Set "b" "w" (ttl 40)` at time 0:
the entry is mutated in place and the broken re-sort reverses the index. -/
def sBad : TTLCache String :=
  { defaultTTL := 30,
    cache := [("c", ⟨"z", "c", 30⟩), ("b", ⟨"w", "b", 40⟩),
              ("a", ⟨"x", "a", 10⟩)],
    sweepTicker := 5, ttlHK := ["c", "b", "a"] }

/-- State the code reaches from `sAB` by `Set "a" "x2" (ttl 15)` at time 0:
after the in-place mutation the reversal leaves `[20, 15]` in the index. -/
def s2Bad : TTLCache String :=
  { defaultTTL := 30,
    cache := [("b", ⟨"y", "b", 20⟩), ("a", ⟨"x2", "a", 15⟩)], sweepTicker := 5,
    ttlHK := ["b", "a"] }

/-- State after `Set "a" "x" (ttl 5)` at time 0 from a fresh cache. -/
def tU1 : TTLCache String :=
  { defaultTTL := 30, cache := [("a", ⟨"x", "a", 5⟩)], sweepTicker := 5,
    ttlHK := ["a"] }

/-- State after a further `Set "b" "y" (ttl 5)` at time 0: the tied new
reference lands before the equal-expiration one. -/
def tU2 : TTLCache String :=
  { defaultTTL := 30,
    cache := [("b", ⟨"y", "b", 5⟩), ("a", ⟨"x", "a", 5⟩)], sweepTicker := 5,
    ttlHK := ["b", "a"] }

/-- State after `Set "a" "x" (ttl 2^32 - 1)` at time 0: stored expiration
`2^32 - 1`, the largest representable timestamp. -/
def w1 : TTLCache String :=
  { defaultTTL := 30, cache := [("a", ⟨"x", "a", 4294967295⟩)],
    sweepTicker := 5, ttlHK := ["a"] }

/-- State after a further `Set "b" "y" (ttl 2^32 - 1)` at time 1: the real
expiration is one second later than `"a"`'s, but the stored `uint32` wraps to
`0` and the reference sorts first. -/
def w2 : TTLCache String :=
  { defaultTTL := 30,
    cache := [("b", ⟨"y", "b", 0⟩), ("a", ⟨"x", "a", 4294967295⟩)],
    sweepTicker := 5, ttlHK := ["b", "a"] }

/-! ### Properties of the binary search `goSearch` -/

/-- Bounds of the search core, by induction on the fuel. -/
lemma goSearchAux_bounds (n : ℕ) : ∀ (f : ℕ → Bool) (i j : ℕ), j - i ≤ n → i ≤ j →
    i ≤ goSearchAux f n i j ∧ goSearchAux f n i j ≤ j := by
  induction n with
  | zero =>
    intro f i j h1 h2
    rw [goSearchAux]
    omega
  | succ n ih =>
    intro f i j h1 h2
    rw [goSearchAux]
    by_cases hij : i < j
    · rw [if_pos hij]
      by_cases hf : f ((i + j) / 2) = true
      · rw [if_pos hf]
        have h := ih f i ((i + j) / 2) (by omega) (by omega)
        omega
      · rw [if_neg hf]
        have h := ih f ((i + j) / 2 + 1) j (by omega) (by omega)
        omega
    · rw [if_neg hij]
      omega

/-- Bound of the search as the source uses it: the returned insertion
position never exceeds the length searched over. -/
lemma goSearch_le (f : ℕ → Bool) (j : ℕ) : goSearch f 0 j ≤ j :=
  (goSearchAux_bounds j f 0 j (by omega) (by omega)).2

/-- Correctness of the search core on a monotone predicate, stated through
its boundary `b`: everything below `b` fails `f`, everything from `b` up
holds, and the search returns `b`. -/
lemma goSearchAux_eq_boundary (n : ℕ) : ∀ (f : ℕ → Bool) (i j b : ℕ), j - i ≤ n →
    i ≤ b → b ≤ j →
    (∀ k, i ≤ k → k < b → f k = false) →
    (∀ k, b ≤ k → k < j → f k = true) →
    goSearchAux f n i j = b := by
  induction n with
  | zero =>
    intro f i j b h1 hib hbj hlo hhi
    rw [goSearchAux]
    omega
  | succ n ih =>
    intro f i j b h1 hib hbj hlo hhi
    rw [goSearchAux]
    by_cases hij : i < j
    · rw [if_pos hij]
      by_cases hf : f ((i + j) / 2) = true
      · rw [if_pos hf]
        have hbm : b ≤ (i + j) / 2 := by
          by_contra hc
          push_neg at hc
          have := hlo ((i + j) / 2) (by omega) (by omega)
          rw [this] at hf
          exact Bool.false_ne_true hf
        exact ih f i ((i + j) / 2) b (by omega) hib hbm hlo
          (fun k hk1 hk2 => hhi k hk1 (by omega))
      · rw [if_neg hf]
        have hmb : (i + j) / 2 + 1 ≤ b := by
          by_contra hc
          push_neg at hc
          exact hf (hhi ((i + j) / 2) (by omega) (by omega))
        exact ih f ((i + j) / 2 + 1) j b (by omega) hmb hbj
          (fun k hk1 hk2 => hlo k (by omega) hk2) hhi
    · rw [if_neg hij]
      omega

/-- Correctness of `goSearch` as the source calls it. -/
lemma goSearch_eq_boundary (f : ℕ → Bool) (n b : ℕ) (hb : b ≤ n)
    (hlo : ∀ k, k < b → f k = false)
    (hhi : ∀ k, b ≤ k → k < n → f k = true) :
    goSearch f 0 n = b :=
  goSearchAux_eq_boundary n f 0 n b (by omega) (by omega) hb
    (fun k _ hk2 => hlo k hk2) hhi

/-! ### Properties of the modeled `sort.Slice` call -/

/-- One bubbling pass permutes: it only moves `x` past earlier elements. -/
lemma goBubble_perm {α : Type} (less : α → α → Bool) (x : α) :
    ∀ l : List α, (goBubble less x l).Perm (x :: l) := by
  intro l
  induction l with
  | nil => simp [goBubble]
  | cons p rest ih =>
    rw [goBubble]
    by_cases h : less x p = true
    · rw [if_pos h]
      exact (ih.cons p).trans (List.Perm.swap x p rest)
    · rw [if_neg h]

/-- The insertion-sort fold permutes the processed elements into the
accumulator. -/
lemma foldl_goBubble_perm {α : Type} (less : α → α → Bool) :
    ∀ (xs racc : List α),
      (xs.foldl (fun racc x => goBubble less x racc) racc).Perm (racc ++ xs) := by
  intro xs
  induction xs with
  | nil => simp
  | cons x xs ih =>
    intro racc
    have h1 := ih (goBubble less x racc)
    have h2 : (goBubble less x racc ++ xs).Perm ((x :: racc) ++ xs) :=
      (goBubble_perm less x racc).append_right xs
    have h3 : ((x :: racc) ++ xs).Perm (racc ++ x :: xs) := List.perm_middle.symm
    simpa using (h1.trans (h2.trans h3))

/-- The modeled sort only permutes the index, whatever the comparator. -/
lemma goInsertionSort_perm {α : Type} (less : α → α → Bool) (xs : List α) :
    (goInsertionSort less xs).Perm xs := by
  unfold goInsertionSort
  have h := foldl_goBubble_perm less xs []
  exact (List.reverse_perm _).trans (by simpa using h)

/-- With a constantly-true comparator the bubbling pass pushes `x` through
the whole (reversed) prefix. -/
lemma goBubble_const_true {α : Type} {less : α → α → Bool}
    (h : ∀ a b, less a b = true) (x : α) :
    ∀ l : List α, goBubble less x l = l ++ [x] := by
  intro l
  induction l with
  | nil => rfl
  | cons p rest ih => rw [goBubble, if_pos (h x p), ih]; rfl

/-- With a constantly-true comparator Go's insertion sort reverses the slice:
every element is swapped all the way to the front. -/
lemma goInsertionSort_const_true {α : Type} {less : α → α → Bool}
    (h : ∀ a b, less a b = true) (xs : List α) :
    goInsertionSort less xs = xs.reverse := by
  have key : ∀ (ys racc : List α),
      ys.foldl (fun racc x => goBubble less x racc) racc = racc ++ ys := by
    intro ys
    induction ys with
    | nil => simp
    | cons y ys ih =>
      intro racc
      rw [List.foldl_cons, ih, goBubble_const_true h]
      simp
  unfold goInsertionSort
  rw [key]
  simp

/-! ### Properties of the store operations -/

lemma storeLookup_nil {α : Type} (k : Key) :
    storeLookup ([] : List (Key × CacheEntry α)) k = none := rfl

lemma storeLookup_cons_self {α : Type} (s : List (Key × CacheEntry α))
    (k : Key) (e : CacheEntry α) : storeLookup ((k, e) :: s) k = some e := by
  simp [storeLookup]

lemma storeLookup_cons_ne {α : Type} {s : List (Key × CacheEntry α)}
    {k k1 : Key} (e : CacheEntry α) (h : k1 ≠ k) :
    storeLookup ((k1, e) :: s) k = storeLookup s k := by
  simp [storeLookup, List.find?_cons_of_neg, h]

lemma storeLookup_eq_none_iff {α : Type} {s : List (Key × CacheEntry α)}
    {k : Key} : storeLookup s k = none ↔ k ∉ s.map Prod.fst := by
  simp only [storeLookup, Option.map_eq_none', List.find?_eq_none, List.mem_map]
  constructor
  · rintro h ⟨p, hp, rfl⟩
    exact h p hp (by simp)
  · intro h p hp hbeq
    exact h ⟨p, hp, by simpa using hbeq⟩

lemma storeMutate_map_fst {α : Type} (s : List (Key × CacheEntry α))
    (k : Key) (v : α) (x : ℕ) :
    (storeMutate s k v x).map Prod.fst = s.map Prod.fst := by
  induction s with
  | nil => rfl
  | cons p rest ih =>
    rw [storeMutate]
    by_cases h : p.1 == k
    · rw [if_pos h]; simp
    · rw [if_neg h]; simp [ih]

lemma storeLookup_mutate_self {α : Type} {s : List (Key × CacheEntry α)}
    {k : Key} {e : CacheEntry α} (v : α) (x : ℕ)
    (h : storeLookup s k = some e) :
    storeLookup (storeMutate s k v x) k = some { e with value := v, exp := x } := by
  induction s with
  | nil => simp [storeLookup] at h
  | cons p rest ih =>
    rw [storeMutate]
    by_cases hk : p.1 = k
    · rw [if_pos (by simpa using hk)]
      subst hk
      rw [storeLookup_cons_self]
      obtain ⟨k1, e1⟩ := p
      rw [storeLookup_cons_self] at h
      simp only [Option.some.injEq] at h
      rw [h]
    · rw [if_neg (by simpa using hk)]
      obtain ⟨k1, e1⟩ := p
      simp only at hk
      rw [storeLookup_cons_ne _ hk] at h
      rw [storeLookup_cons_ne _ hk]
      exact ih h

lemma storeLookup_mutate_ne {α : Type} (s : List (Key × CacheEntry α))
    {k k' : Key} (v : α) (x : ℕ) (h : k' ≠ k) :
    storeLookup (storeMutate s k v x) k' = storeLookup s k' := by
  induction s with
  | nil => rfl
  | cons p rest ih =>
    obtain ⟨k1, e1⟩ := p
    rw [storeMutate]
    by_cases hk : k1 = k
    · rw [if_pos (by simpa using hk)]
      subst hk
      rw [storeLookup_cons_ne _ (Ne.symm h), storeLookup_cons_ne _ (Ne.symm h)]
    · rw [if_neg (by simpa using hk)]
      by_cases hk' : k1 = k'
      · subst hk'
        rw [storeLookup_cons_self, storeLookup_cons_self]
      · rw [storeLookup_cons_ne _ hk', storeLookup_cons_ne _ hk']
        exact ih

lemma storeDelete_map_fst {α : Type} (s : List (Key × CacheEntry α)) (k : Key) :
    (storeDelete s k).map Prod.fst = (s.map Prod.fst).erase k := by
  induction s with
  | nil => rfl
  | cons p rest ih =>
    obtain ⟨k1, e1⟩ := p
    rw [storeDelete, List.map_cons, List.erase_cons]
    by_cases hk : k1 = k
    · rw [if_pos (by simpa using hk)]
      simp [hk]
    · rw [if_neg (by simpa using hk)]
      simp [ih, hk]

lemma storeLookup_delete_ne {α : Type} (s : List (Key × CacheEntry α))
    {k k' : Key} (h : k' ≠ k) :
    storeLookup (storeDelete s k) k' = storeLookup s k' := by
  induction s with
  | nil => rfl
  | cons p rest ih =>
    obtain ⟨k1, e1⟩ := p
    rw [storeDelete]
    by_cases hk : k1 = k
    · rw [if_pos (by simpa using hk)]
      subst hk
      rw [storeLookup_cons_ne _ (Ne.symm h)]
    · rw [if_neg (by simpa using hk)]
      by_cases hk' : k1 = k'
      · subst hk'
        rw [storeLookup_cons_self, storeLookup_cons_self]
      · rw [storeLookup_cons_ne _ hk', storeLookup_cons_ne _ hk']
        exact ih

lemma storeLookup_of_mem_nodup {α : Type} {s : List (Key × CacheEntry α)}
    {k : Key} {e : CacheEntry α} (hnd : (s.map Prod.fst).Nodup)
    (hmem : (k, e) ∈ s) : storeLookup s k = some e := by
  induction s with
  | nil => simp at hmem
  | cons p rest ih =>
    obtain ⟨k1, e1⟩ := p
    rw [List.map_cons] at hnd
    have hnd' := List.nodup_cons.mp hnd
    rcases List.mem_cons.mp hmem with heq | hmem'
    · cases heq
      exact storeLookup_cons_self rest k e
    · have hk1 : k1 ≠ k := by
        rintro rfl
        exact hnd'.1 (List.mem_map.mpr ⟨(k1, e), hmem', rfl⟩)
      rw [storeLookup_cons_ne _ hk1]
      exact ih hnd'.2 hmem'

lemma filter_storeDelete {α : Type} (p : Key × CacheEntry α → Bool)
    (s : List (Key × CacheEntry α)) (k : Key)
    (h : ∀ e, storeLookup s k = some e → p (k, e) = false) :
    (storeDelete s k).filter p = s.filter p := by
  induction s with
  | nil => rfl
  | cons q rest ih =>
    obtain ⟨k1, e1⟩ := q
    rw [storeDelete]
    by_cases hk : k1 = k
    · rw [if_pos (by simpa using hk)]
      subst hk
      have := h e1 (storeLookup_cons_self rest k1 e1)
      rw [List.filter_cons, this]
      simp
    · rw [if_neg (by simpa using hk)]
      have h' : ∀ e, storeLookup rest k = some e → p (k, e) = false := by
        intro e he
        exact h e (by rw [storeLookup_cons_ne _ hk]; exact he)
      rw [List.filter_cons, List.filter_cons, ih h']

/-! ### Characterizations of the cache operations -/

lemma get_snd {α : Type} (c : TTLCache α) (k : Key) : (c.Get k).2 = c := by
  unfold TTLCache.Get
  cases storeLookup c.cache k <;> rfl

lemma storeLookup_isSome_iff {α : Type} {s : List (Key × CacheEntry α)}
    {k : Key} : (storeLookup s k).isSome ↔ k ∈ s.map Prod.fst := by
  rw [Option.isSome_iff_ne_none, Ne, storeLookup_eq_none_iff, not_not]

/-- Shape of a successful update: the entry is mutated in place in the store,
and the constant-true comparator makes the `sort.Slice` call reverse the
index. -/
lemma updateCacheEntry_eq {α : Type} (c : TTLCache α) (e : CacheEntry α)
    (ex : CacheEntry α) (h : storeLookup c.cache e.key = some ex) :
    c.updateCacheEntry e =
      .ok { c with cache := storeMutate c.cache e.key e.value e.exp,
                   ttlHK := c.ttlHK.reverse } := by
  unfold TTLCache.updateCacheEntry
  rw [h]
  dsimp only
  rw [goInsertionSort_const_true (fun a b => by simp)]

/-- Shape of `Set` on a key already present in the store. -/
lemma set_of_present {α : Type} (c : TTLCache α) (now : ℕ) (k : Key) (v : α)
    (opt : List ℤ) (ex : CacheEntry α) (h : storeLookup c.cache k = some ex) :
    c.Set now k v opt =
      .ok { c with cache := storeMutate c.cache k v (getExp now (c.effTTL opt)),
                   ttlHK := c.ttlHK.reverse } := by
  unfold TTLCache.Set
  rw [if_pos (by rw [h]; rfl)]
  exact updateCacheEntry_eq c _ ex h

/-- Shape of `Set` on a key absent from the store: the entry is prepended to
the store and its reference inserted into the index at the position found by
the binary search. -/
lemma set_of_absent {α : Type} (c : TTLCache α) (now : ℕ) (k : Key) (v : α)
    (opt : List ℤ) (h : storeLookup c.cache k = none) :
    c.Set now k v opt =
      .ok (({ c with
              cache := (k, newCacheEntry k v (getExp now (c.effTTL opt))) ::
                c.cache }).insertNewHKEntry
            (newCacheEntry k v (getExp now (c.effTTL opt)))) := by
  unfold TTLCache.Set
  rw [if_neg (by rw [h]; simp)]
  rfl

/-- One `Set` preserves consistency and establishes the written value. -/
lemma set_consistent_spec {α : Type} {c : TTLCache α} {now : ℕ} {k : Key}
    {v : α} {opt : List ℤ} {c2 : TTLCache α}
    (hcon : c.Consistent) (hset : c.Set now k v opt = .ok c2) :
    c2.Consistent ∧ (storeLookup c2.cache k).map (·.value) = some v := by
  rcases hex : storeLookup c.cache k with _ | ex
  · rw [set_of_absent c now k v opt hex] at hset
    cases hset
    have hnotmem : k ∉ c.cache.map Prod.fst := storeLookup_eq_none_iff.mp hex
    have hpos := goSearch_le
      (fun i => decide ((newCacheEntry k v (getExp now (c.effTTL opt))).exp ≤
        expOfStore ((k, newCacheEntry k v (getExp now (c.effTTL opt))) :: c.cache)
          (c.ttlHK.getD i ""))) c.ttlHK.length
    refine ⟨⟨?_, ?_⟩, ?_⟩
    · simp only [TTLCache.insertNewHKEntry, TTLCache.StoreKeys, List.map_cons]
      exact ((hcon.1.cons k).trans
        (List.perm_insertIdx k c.ttlHK hpos).symm)
    · simp only [TTLCache.insertNewHKEntry, TTLCache.StoreKeys, List.map_cons]
      exact List.nodup_cons.mpr ⟨hnotmem, hcon.2⟩
    · simp only [TTLCache.insertNewHKEntry]
      rw [storeLookup_cons_self]
      rfl
  · rw [set_of_present c now k v opt ex hex] at hset
    cases hset
    refine ⟨⟨?_, ?_⟩, ?_⟩
    · simp only [TTLCache.StoreKeys, storeMutate_map_fst]
      exact hcon.1.trans (List.reverse_perm _).symm
    · simp only [TTLCache.StoreKeys, storeMutate_map_fst]
      exact hcon.2
    · rw [storeLookup_mutate_self v (getExp now (c.effTTL opt)) hex]
      rfl

/-- Freshly constructed caches are consistent. -/
lemma newTTLCache_consistent {α : Type} {numSize : ℕ} {dttl sp : ℤ}
    {c : TTLCache α} (h : NewTTLCache α numSize dttl sp = .ok c) :
    c.Consistent ∧ c.cache = [] ∧ c.ttlHK = [] := by
  unfold NewTTLCache at h
  split at h
  · exact absurd h (by simp)
  · split at h
    · exact absurd h (by simp)
    · split at h
      · exact absurd h (by simp)
      · cases h
        exact ⟨⟨List.Perm.refl _, List.nodup_nil⟩, rfl, rfl⟩

/-- Every reachable state keeps the store and the index consistent. -/
lemma reachable_consistent {α : Type} {c : TTLCache α} (h : Reachable c) :
    c.Consistent := by
  induction h with
  | new numSize dttl sp c hnew => exact (newTTLCache_consistent hnew).1
  | set c now k v opt c2 _hr hset ih => exact (set_consistent_spec ih hset).1
  | get c k _hr ih => rw [get_snd]; exact ih

/-! ### Correctness of the sweep loop -/

lemma expOfStore_eq_exp {α : Type} {s : List (Key × CacheEntry α)} {k : Key}
    {e : CacheEntry α} (h : storeLookup s k = some e) :
    expOfStore s k = e.exp := by
  rw [expOfStore, h]
  rfl

/-- The front-popping loop removes exactly the references (and store entries)
whose expiration is due, provided the index is sorted and consistent with the
store. -/
lemma sweepStep_spec {α : Type} (now : ℕ) :
    ∀ (idx : List Key) (s : List (Key × CacheEntry α)),
      (s.map Prod.fst).Perm idx → (s.map Prod.fst).Nodup →
      List.Pairwise (· ≤ ·) (idx.map (expOfStore s)) →
      sweepStep now idx s =
        (idx.filter (fun k => decide (now < expOfStore s k)),
         s.filter (fun p => decide (now < p.2.exp))) := by
  intro idx
  induction idx with
  | nil =>
    intro s hperm _hnd _hsort
    have hs : s = [] := List.map_eq_nil_iff.mp hperm.eq_nil
    subst hs
    rfl
  | cons k rest ih =>
    intro s hperm hnd hsort
    have hidxnd : (k :: rest).Nodup := hperm.nodup hnd
    have hknotrest : k ∉ rest := (List.nodup_cons.mp hidxnd).1
    have hkmem : k ∈ s.map Prod.fst := hperm.mem_iff.mpr (List.mem_cons_self k rest)
    obtain ⟨p, hps, hpk⟩ := List.mem_map.mp hkmem
    have hlk : storeLookup s k = some p.2 := by
      have : (k, p.2) ∈ s := by
        obtain ⟨k1, e1⟩ := p
        cases hpk
        exact hps
      exact storeLookup_of_mem_nodup hnd this
    have hexp : expOfStore s k = p.2.exp := expOfStore_eq_exp hlk
    rw [List.map_cons] at hsort
    have hsc := List.pairwise_cons.mp hsort
    rw [sweepStep]
    by_cases hle : expOfStore s k ≤ now
    · rw [if_pos hle]
      have hfst : (storeDelete s k).map Prod.fst = (s.map Prod.fst).erase k :=
        storeDelete_map_fst s k
      have hperm' : ((storeDelete s k).map Prod.fst).Perm rest := by
        rw [hfst]
        exact (hperm.erase k).trans (by rw [List.erase_cons_head])
      have hnd' : ((storeDelete s k).map Prod.fst).Nodup := by
        rw [hfst]
        exact hnd.erase k
      have hexps : ∀ k' ∈ rest, expOfStore (storeDelete s k) k' = expOfStore s k' := by
        intro k' hk'
        have hne : k' ≠ k := fun h => hknotrest (h ▸ hk')
        rw [expOfStore, expOfStore, storeLookup_delete_ne s hne]
      have hmapeq : rest.map (expOfStore (storeDelete s k)) = rest.map (expOfStore s) :=
        List.map_congr_left hexps
      have hsort' : List.Pairwise (· ≤ ·) (rest.map (expOfStore (storeDelete s k))) := by
        rw [hmapeq]
        exact hsc.2
      rw [ih (storeDelete s k) hperm' hnd' hsort']
      have hfilter1 : rest.filter (fun k' => decide (now < expOfStore (storeDelete s k) k')) =
          rest.filter (fun k' => decide (now < expOfStore s k')) := by
        apply List.filter_congr
        intro k' hk'
        rw [hexps k' hk']
      have hfilter2 : (storeDelete s k).filter (fun p => decide (now < p.2.exp)) =
          s.filter (fun p => decide (now < p.2.exp)) := by
        apply filter_storeDelete
        intro e he
        rw [hlk] at he
        cases he
        simp only [decide_eq_false_iff_not, not_lt]
        rw [← hexp]
        exact hle
      rw [hfilter1, hfilter2]
      rw [List.filter_cons]
      rw [show (decide (now < expOfStore s k)) = false by simpa using hle]
      simp
    · rw [if_neg hle]
      have hfresh : ∀ k' ∈ (k :: rest), now < expOfStore s k' := by
        intro k' hk'
        rcases List.mem_cons.mp hk' with rfl | hk''
        · omega
        · have : expOfStore s k ≤ expOfStore s k' :=
            hsc.1 _ (List.mem_map.mpr ⟨k', hk'', rfl⟩)
          omega
    
      have h1 : (k :: rest).filter (fun k' => decide (now < expOfStore s k')) = k :: rest := by
        rw [List.filter_eq_self]
        intro a ha
        simpa using hfresh a ha
      have h2 : s.filter (fun p => decide (now < p.2.exp)) = s := by
        rw [List.filter_eq_self]
        intro p hp
        have hmem : p.1 ∈ k :: rest :=
          hperm.mem_iff.mp (List.mem_map.mpr ⟨p, hp, rfl⟩)
        have hlkp : storeLookup s p.1 = some p.2 :=
          storeLookup_of_mem_nodup hnd (by cases p; exact hp)
        have := hfresh p.1 hmem
        rw [expOfStore_eq_exp hlkp] at this
        simpa using this
      rw [h1, h2]

/-! ### Position of a fresh insertion in a sorted index -/

/-- Where `insertNewHKEntry` puts a fresh reference when the index is sorted:
before every reference with expiration `>= ent.exp` (ties included) and after
every reference with a strictly smaller expiration. -/
lemma goSearch_insertPos {α : Type} (c : TTLCache α) (ent : CacheEntry α)
    (hknot : ent.key ∉ c.ttlHK)
    (hsort : List.Pairwise (· ≤ ·) (c.ttlHK.map c.expOf)) :
    goSearch (fun i => decide (ent.exp ≤
        expOfStore ((ent.key, ent) :: c.cache) (c.ttlHK.getD i ""))) 0
        c.ttlHK.length ≤ c.ttlHK.length ∧
    (∀ m, m < goSearch (fun i => decide (ent.exp ≤
        expOfStore ((ent.key, ent) :: c.cache) (c.ttlHK.getD i ""))) 0
        c.ttlHK.length →
      c.expOf (c.ttlHK.getD m "") < ent.exp) ∧
    (∀ m, goSearch (fun i => decide (ent.exp ≤
        expOfStore ((ent.key, ent) :: c.cache) (c.ttlHK.getD i ""))) 0
        c.ttlHK.length ≤ m → m < c.ttlHK.length →
      ent.exp ≤ c.expOf (c.ttlHK.getD m "")) := by
  have hlen : (c.ttlHK.map c.expOf).length = c.ttlHK.length := List.length_map _ _
  have hpred : ∀ (m : ℕ), m < c.ttlHK.length →
      expOfStore ((ent.key, ent) :: c.cache) (c.ttlHK.getD m "") =
        c.expOf (c.ttlHK.getD m "") := by
    intro m hm
    have hmem : c.ttlHK.getD m "" ∈ c.ttlHK := by
      rw [List.getD_eq_getElem c.ttlHK "" hm]
      exact List.getElem_mem hm
    have hne : c.ttlHK.getD m "" ≠ ent.key := fun h => hknot (h ▸ hmem)
    rw [TTLCache.expOf, expOfStore, expOfStore,
      storeLookup_cons_ne _ (Ne.symm hne)]
  have hgetD : ∀ (m : ℕ), m < c.ttlHK.length →
      c.expOf (c.ttlHK.getD m "") = (c.ttlHK.map c.expOf).getD m 0 := by
    intro m hm
    rw [List.getD_eq_getElem c.ttlHK "" hm, List.getD_eq_getElem _ 0 (by omega),
      List.getElem_map]
  have hble := @List.findIdx_le_length _ (fun x => decide (ent.exp ≤ x))
    (c.ttlHK.map c.expOf)
  have hlow : ∀ m, m < List.findIdx (fun x => decide (ent.exp ≤ x))
      (c.ttlHK.map c.expOf) → (c.ttlHK.map c.expOf).getD m 0 < ent.exp := by
    intro m hm
    have hmlt : m < (c.ttlHK.map c.expOf).length := by omega
    have hfalse := List.not_of_lt_findIdx hm
    rw [List.getD_eq_getElem _ 0 hmlt]
    simpa using hfalse
  have hhigh : ∀ m, List.findIdx (fun x => decide (ent.exp ≤ x))
      (c.ttlHK.map c.expOf) ≤ m → m < (c.ttlHK.map c.expOf).length →
      ent.exp ≤ (c.ttlHK.map c.expOf).getD m 0 := by
    intro m hbm hmlt
    have hblt : List.findIdx (fun x => decide (ent.exp ≤ x))
        (c.ttlHK.map c.expOf) < (c.ttlHK.map c.expOf).length := by omega
    have h1 := @List.findIdx_getElem _ (fun x => decide (ent.exp ≤ x))
      (c.ttlHK.map c.expOf) hblt
    have h1' : ent.exp ≤ (c.ttlHK.map c.expOf).getD
        (List.findIdx (fun x => decide (ent.exp ≤ x)) (c.ttlHK.map c.expOf)) 0 := by
      rw [List.getD_eq_getElem _ 0 hblt]
      simpa using h1
    have h2 : (c.ttlHK.map c.expOf).getD
        (List.findIdx (fun x => decide (ent.exp ≤ x)) (c.ttlHK.map c.expOf)) 0 ≤
        (c.ttlHK.map c.expOf).getD m 0 := by
      rw [List.getD_eq_getElem _ 0 hblt, List.getD_eq_getElem _ 0 hmlt]
      rcases eq_or_lt_of_le hbm with heq | hlt
      · subst heq
        exact le_refl _
      · exact List.pairwise_iff_getElem.mp hsort _ _ hblt hmlt hlt
    omega
  have hsearch : goSearch (fun i => decide (ent.exp ≤
      expOfStore ((ent.key, ent) :: c.cache) (c.ttlHK.getD i ""))) 0
      c.ttlHK.length =
      List.findIdx (fun x => decide (ent.exp ≤ x)) (c.ttlHK.map c.expOf) := by
    apply goSearch_eq_boundary
    · omega
    · intro m hm
      have hmlt : m < c.ttlHK.length := by omega
      have := hlow m hm
      rw [hpred m hmlt, hgetD m hmlt]
      simpa using this
    · intro m hbm hmn
      have := hhigh m hbm (by omega)
      rw [hpred m hmn, hgetD m hmn]
      simpa using this
  rw [hsearch]
  refine ⟨by omega, ?_, ?_⟩
  · intro m hm
    have hmlt : m < c.ttlHK.length := by omega
    rw [hgetD m hmlt]
    exact hlow m hm
  · intro m hbm hmn
    rw [hgetD m hmn]
    exact hhigh m hbm (by omega)

/-- Projection of `Get` on a present key. -/
lemma get_fst_of_some {α : Type} {c : TTLCache α} {k : Key} {e : CacheEntry α}
    (h : storeLookup c.cache k = some e) : (c.Get k).1 = .ok e.value := by
  unfold TTLCache.Get
  rw [h]

/-! ### Claim theorems -/

/-- Claim C1: the claim says `Set` on an existing key with a later expiration
mutates the entry in place and relocates its index reference strictly later
than all smaller-expiration references, leaving the others in relative order.
The code violates this: on the sorted state `sABC` (expirations 10, 20, 30),
updating `"b"` to expiration 40 does mutate in place, but the `sort.Slice`
comparator compares each element with itself, so the call reverses the index
to `["c", "b", "a"]`: the smaller-expiration reference `"a"` now sits after
`"b"`, the relative order of `"a"` and `"c"` is flipped, and the index is no
longer sorted. -/
theorem update_relocation_broken :
    sABC.IndexSorted ∧
    storeLookup sABC.cache "b" = some ⟨"y", "b", 20⟩ ∧
    getExp 0 (sABC.effTTL [40]) = 40 ∧
    sABC.Set 0 "b" "w" [40] = .ok sBad ∧
    storeLookup sBad.cache "b" = some ⟨"w", "b", 40⟩ ∧
    sABC.expOf "b" < sBad.expOf "b" ∧
    sBad.ttlHK = ["c", "b", "a"] ∧
    sBad.expOf "a" = 10 ∧ sBad.expOf "c" = 30 ∧
    ¬ sBad.IndexSorted :=
  ⟨(by simp [List.chain'_cons] : List.Chain' (· ≤ ·) [(10 : ℕ), 20, 30]),
   rfl, rfl, rfl, rfl, by decide, rfl, rfl, rfl,
   (by simp [List.chain'_cons] : ¬ List.Chain' (· ≤ ·) [(30 : ℕ), 40, 10])⟩

/-- Claim C2: the claim says every state reachable by `Set` and `Get` from a
fresh cache keeps the index non-decreasing by expiration.  The state `s2Bad`
is reachable (fresh cache, three `Set` calls, the last updating `"a"` to
expiration 15 while `"b"` holds 20), yet its index resolves to `[20, 15]`,
violating the adjacent-pairs invariant: the self-comparing re-sort comparator
of `updateCacheEntry` reverses the index instead of restoring sortedness. -/
theorem reachable_unsorted_index :
    Reachable s2Bad ∧ ¬ s2Bad.IndexSorted :=
  ⟨Reachable.set sAB 0 "a" "x2" [15] s2Bad
      (Reachable.set sA 0 "b" "y" [20] sAB
        (Reachable.set sample0 0 "a" "x" [10] sA
          (Reachable.new 10 30 5 sample0 rfl) rfl) rfl) rfl,
   (by simp [List.chain'_cons] : ¬ List.Chain' (· ≤ ·) [(20 : ℕ), 15])⟩

/-- Claim C3: `Sweep` at time `now` removes from both store and index exactly
the entries with expiration `<= now`, keeping the remaining entries in their
relative order (both results are `filter`s of the originals), and returns no
error (it is a total function into cache states, a no-op when nothing has
expired).  Proved of the spec-modelled `Sweep` for every consistent, sorted
cache state. -/
theorem sweep_removes_exactly_expired {α : Type} (c : TTLCache α) (now : ℕ)
    (hcon : c.Consistent) (hsort : c.IndexSorted) :
    (c.Sweep now).ttlHK = c.ttlHK.filter (fun k => decide (now < c.expOf k)) ∧
    (c.Sweep now).cache = c.cache.filter (fun p => decide (now < p.2.exp)) := by
  have hpair : List.Pairwise (· ≤ ·) (c.ttlHK.map (expOfStore c.cache)) :=
    List.chain'_iff_pairwise.mp hsort
  have h := sweepStep_spec now c.ttlHK c.cache hcon.1 hcon.2 hpair
  unfold TTLCache.Sweep
  rw [h]
  exact ⟨rfl, rfl⟩

/-- Witness for C3: sweeping the three-entry sorted state (expirations
10, 20, 30) at time 25 removes exactly the two expired entries from both
structures and keeps `"c"`. -/
theorem sweep_removes_exactly_expired_witness :
    sABC.Consistent ∧ sABC.IndexSorted ∧
    (sABC.Sweep 25).ttlHK = ["c"] ∧
    (sABC.Sweep 25).cache = [("c", ⟨"z", "c", 30⟩)] := by
  have hcon : sABC.Consistent := by constructor <;> decide
  have hsort : sABC.IndexSorted :=
    (by simp [List.chain'_cons] : List.Chain' (· ≤ ·) [(10 : ℕ), 20, 30])
  have h := sweep_removes_exactly_expired sABC 25 hcon hsort
  refine ⟨hcon, hsort, ?_, ?_⟩
  · rw [h.1]; rfl
  · rw [h.2]; rfl

/-- Claim C4: in every state reachable from a fresh cache by `Set` and `Get`,
the number of index references equals the number of store entries, and the
multiset of identities the index references (keys, the model of the shared
entry pointers) equals the multiset of identities the store owns. -/
theorem reachable_index_matches_store {α : Type} {c : TTLCache α}
    (h : Reachable c) :
    c.cache.length = c.ttlHK.length ∧
    (c.StoreKeys : Multiset Key) = (c.ttlHK : Multiset Key) := by
  have hcon := reachable_consistent h
  refine ⟨?_, Multiset.coe_eq_coe.mpr hcon.1⟩
  have hlen := hcon.1.length_eq
  simp only [TTLCache.StoreKeys, List.length_map] at hlen
  exact hlen

/-- Witness for C4: the two-entry reachable state `sAB`. -/
theorem reachable_index_matches_store_witness :
    sAB.cache.length = sAB.ttlHK.length ∧
    (sAB.StoreKeys : Multiset Key) = (sAB.ttlHK : Multiset Key) :=
  reachable_index_matches_store
    (Reachable.set sA 0 "b" "y" [20] sAB
      (Reachable.set sample0 0 "a" "x" [10] sA
        (Reachable.new 10 30 5 sample0 rfl) rfl) rfl)

/-- Counterexample to claim C5: the claim says a new key whose expiration
ties an existing one is inserted after all equal-expiration references
(stable insertion).  Inserting `"b"` with expiration 5 next to `"a"` with
expiration 5 instead lands it before: the search predicate
`ttlHK[i].exp >= entry.exp` already holds at the tied position, so
`sort.Search` returns it. -/
theorem tie_insert_not_after_equals :
    sample0.Set 0 "a" "x" [5] = .ok tU1 ∧
    tU1.Set 0 "b" "y" [5] = .ok tU2 ∧
    tU2.expOf "a" = 5 ∧ tU2.expOf "b" = 5 ∧
    tU2.ttlHK = ["b", "a"] ∧ tU2.ttlHK ≠ ["a", "b"] :=
  ⟨rfl, rfl, rfl, rfl, rfl, by decide⟩

/-- Claim C5 as amended: on a consistent sorted state, `Set` of an absent key
inserts its reference at the first position whose expiration is greater than
or equal to the computed one — after all strictly smaller expirations and
before every reference with an equal (or larger) expiration. -/
theorem insert_fresh_key_at_sorted_position {α : Type} (c : TTLCache α)
    (now : ℕ) (k : Key) (v : α) (opt : List ℤ)
    (hfresh : storeLookup c.cache k = none) (hcon : c.Consistent)
    (hsort : c.IndexSorted) :
    ∃ pos c2, c.Set now k v opt = .ok c2 ∧ pos ≤ c.ttlHK.length ∧
      c2.ttlHK = c.ttlHK.insertIdx pos k ∧
      (∀ m, m < pos →
        c.expOf (c.ttlHK.getD m "") < getExp now (c.effTTL opt)) ∧
      (∀ m, pos ≤ m → m < c.ttlHK.length →
        getExp now (c.effTTL opt) ≤ c.expOf (c.ttlHK.getD m "")) := by
  have hknot : k ∉ c.ttlHK := by
    have hk : k ∉ c.StoreKeys := storeLookup_eq_none_iff.mp hfresh
    exact fun hmem => hk (hcon.1.mem_iff.mpr hmem)
  have hpair := List.chain'_iff_pairwise.mp hsort
  have hIP := goSearch_insertPos c (newCacheEntry k v (getExp now (c.effTTL opt)))
    hknot hpair
  exact ⟨_, _, set_of_absent c now k v opt hfresh, hIP.1, rfl,
    hIP.2.1, hIP.2.2⟩

/-- Witness for amended C5: inserting `"m"` with expiration 15 into the
sorted two-entry state (expirations 10, 20). -/
theorem insert_fresh_key_at_sorted_position_witness :
    ∃ pos c2, sAB.Set 0 "m" "q" [15] = .ok c2 ∧ pos ≤ sAB.ttlHK.length ∧
      c2.ttlHK = sAB.ttlHK.insertIdx pos "m" ∧
      (∀ m, m < pos →
        sAB.expOf (sAB.ttlHK.getD m "") < getExp 0 (sAB.effTTL [15])) ∧
      (∀ m, pos ≤ m → m < sAB.ttlHK.length →
        getExp 0 (sAB.effTTL [15]) ≤ sAB.expOf (sAB.ttlHK.getD m "")) :=
  insert_fresh_key_at_sorted_position sAB 0 "m" "q" [15] rfl
    (by constructor <;> decide)
    (by simp [List.chain'_cons] : List.Chain' (· ≤ ·) [(10 : ℕ), 20])

/-- Every `Set` call succeeds: the update path re-finds the key the presence
check just found. -/
lemma set_total {α : Type} (c : TTLCache α) (now : ℕ) (k : Key) (v : α)
    (opt : List ℤ) : ∃ c2, c.Set now k v opt = .ok c2 := by
  rcases hex : storeLookup c.cache k with _ | ex
  · exact ⟨_, set_of_absent c now k v opt hex⟩
  · exact ⟨_, set_of_present c now k v opt ex hex⟩

/-- Claim C6: from any cache state, `Set k v` followed immediately by
`Get k` returns exactly `v` with no error — on both the fresh-insert path
(the entry is prepended to the store) and the update path (the owned entry is
mutated in place). -/
theorem set_then_get_returns_value {α : Type} (c : TTLCache α) (now : ℕ)
    (k : Key) (v : α) (opt : List ℤ) :
    ∃ c2, c.Set now k v opt = .ok c2 ∧ (c2.Get k).1 = .ok v := by
  rcases hex : storeLookup c.cache k with _ | ex
  · exact ⟨_, set_of_absent c now k v opt hex,
      get_fst_of_some (storeLookup_cons_self _ _ _)⟩
  · exact ⟨_, set_of_present c now k v opt ex hex,
      get_fst_of_some (storeLookup_mutate_self _ _ hex)⟩

/-- Claim C7: on a consistent state, `Set k v1` then `Set k v2` leaves
exactly one entry for `k` in the store and exactly one reference for it in
the index, and that entry carries `v2`. -/
theorem set_twice_single_entry {α : Type} (c : TTLCache α) (now1 now2 : ℕ)
    (k : Key) (v1 v2 : α) (opt1 opt2 : List ℤ) (hcon : c.Consistent) :
    ∃ c1 c2, c.Set now1 k v1 opt1 = .ok c1 ∧ c1.Set now2 k v2 opt2 = .ok c2 ∧
      List.count k c2.StoreKeys = 1 ∧ List.count k c2.ttlHK = 1 ∧
      (storeLookup c2.cache k).map (·.value) = some v2 := by
  obtain ⟨c1, h1⟩ := set_total c now1 k v1 opt1
  obtain ⟨c2, h2⟩ := set_total c1 now2 k v2 opt2
  have s1 := set_consistent_spec hcon h1
  have s2 := set_consistent_spec s1.1 h2
  have hmem : k ∈ c2.StoreKeys := by
    rcases hl : storeLookup c2.cache k with _ | e
    · have hv := s2.2
      rw [hl] at hv
      simp at hv
    · exact storeLookup_isSome_iff.mp (by rw [hl]; rfl)
  have hcount1 : List.count k c2.StoreKeys = 1 :=
    List.count_eq_one_of_mem s2.1.2 hmem
  have hcount2 : List.count k c2.ttlHK = 1 := by
    rw [← List.Perm.count_eq s2.1.1 k]
    exact hcount1
  exact ⟨c1, c2, h1, h2, hcount1, hcount2, s2.2⟩

/-- Witness for C7: overwriting `"k"` on a fresh cache. -/
theorem set_twice_single_entry_witness :
    ∃ c1 c2, sample0.Set 0 "k" "v1" [10] = .ok c1 ∧
      c1.Set 0 "k" "v2" [20] = .ok c2 ∧
      List.count "k" c2.StoreKeys = 1 ∧ List.count "k" c2.ttlHK = 1 ∧
      (storeLookup c2.cache "k").map (·.value) = some "v2" :=
  set_twice_single_entry sample0 0 0 "k" "v1" "v2" [10] [20]
    (by constructor <;> decide)

/-- Claim C8: the constructor validates, in order, the capacity hint (zero,
its only non-positive `uint` value, fails with the invalid-size error), the
default TTL (non-positive fails with the invalid-TTL error) and the sweep
period (non-positive fails with the invalid-sweep-period error), each error
carrying its argument and pairwise distinct; with all three positive it
returns the cache and no error. -/
theorem newTTLCache_validation (α : Type) (numSize : ℕ) (dttl sp : ℤ) :
    (numSize = 0 →
      NewTTLCache α numSize dttl sp = .error (newInvalidSizeErr numSize)) ∧
    (0 < numSize → dttl ≤ 0 →
      NewTTLCache α numSize dttl sp = .error (newInvalidTTLErr dttl)) ∧
    (0 < numSize → 0 < dttl → sp ≤ 0 →
      NewTTLCache α numSize dttl sp = .error (newInvalidSweepPeriodErr sp)) ∧
    (0 < numSize → 0 < dttl → 0 < sp →
      NewTTLCache α numSize dttl sp =
        .ok { defaultTTL := dttl, cache := [], sweepTicker := sp,
              ttlHK := [] }) ∧
    newInvalidSizeErr numSize ≠ newInvalidTTLErr dttl ∧
    newInvalidSizeErr numSize ≠ newInvalidSweepPeriodErr sp ∧
    newInvalidTTLErr dttl ≠ newInvalidSweepPeriodErr sp := by
  refine ⟨?_, ?_, ?_, ?_, ?_, ?_, ?_⟩
  · intro h
    unfold NewTTLCache
    rw [if_pos (by omega)]
  · intro h1 h2
    unfold NewTTLCache
    rw [if_neg (by omega), if_pos h2]
  · intro h1 h2 h3
    unfold NewTTLCache
    rw [if_neg (by omega), if_neg (by omega), if_pos h3]
  · intro h1 h2 h3
    unfold NewTTLCache
    rw [if_neg (by omega), if_neg (by omega), if_neg (by omega)]
  · simp [newInvalidSizeErr, newInvalidTTLErr]
  · simp [newInvalidSizeErr, newInvalidSweepPeriodErr]
  · simp [newInvalidTTLErr, newInvalidSweepPeriodErr]

/-- Witness for C8: the three failing constructions and the succeeding
one of the §8 scenario. -/
theorem newTTLCache_validation_witness :
    NewTTLCache String 0 30 5 = .error (newInvalidSizeErr 0) ∧
    NewTTLCache String 10 0 5 = .error (newInvalidTTLErr 0) ∧
    NewTTLCache String 10 30 (-2) = .error (newInvalidSweepPeriodErr (-2)) ∧
    NewTTLCache String 10 30 5 = .ok sample0 :=
  ⟨(newTTLCache_validation String 0 30 5).1 rfl,
   (newTTLCache_validation String 10 0 5).2.1 (by omega) (by omega),
   (newTTLCache_validation String 10 30 (-2)).2.2.1
     (by omega) (by omega) (by omega),
   (newTTLCache_validation String 10 30 5).2.2.2.1
     (by omega) (by omega) (by omega)⟩

/-- Claim C9: `Get` returns the stored value whenever the key is present —
it never consults the expiration, so an entry whose expiration has passed is
still returned until swept — returns the key-not-found failure exactly when
the key is absent, and leaves the cache state (store and index) unchanged in
both cases. -/
theorem get_is_lazy_store_read {α : Type} (c : TTLCache α) (k : Key) :
    (∀ e, storeLookup c.cache k = some e → c.Get k = (.ok e.value, c)) ∧
    (storeLookup c.cache k = none →
      c.Get k = (.error (newKeyNotFoundErr k), c)) ∧
    (∀ e (now : ℕ), storeLookup c.cache k = some e → e.exp ≤ now →
      (c.Get k).1 = .ok e.value) ∧
    (c.Get k).2 = c := by
  refine ⟨?_, ?_, ?_, get_snd c k⟩
  · intro e he
    unfold TTLCache.Get
    rw [he]
  · intro he
    unfold TTLCache.Get
    rw [he]
  · intro e now he _
    unfold TTLCache.Get
    rw [he]

/-- Witness for C9: a hit, a miss, and a read of `"a"` (expiration 10) at
time 99, long past expiry, still returning its value. -/
theorem get_is_lazy_store_read_witness :
    sABC.Get "a" = (.ok "x", sABC) ∧
    sABC.Get "zz" = (.error (newKeyNotFoundErr "zz"), sABC) ∧
    (sABC.Get "a").1 = .ok "x" ∧
    ((⟨"x", "a", 10⟩ : CacheEntry String).exp ≤ 99) :=
  ⟨(get_is_lazy_store_read sABC "a").1 ⟨"x", "a", 10⟩ rfl,
   (get_is_lazy_store_read sABC "zz").2.1 rfl,
   (get_is_lazy_store_read sABC "a").2.2.1 ⟨"x", "a", 10⟩ 99 rfl (by norm_num),
   by norm_num⟩

/-- Claim C10: the stored expiration is the Unix time plus the TTL reduced
modulo 2^32 (the `uint32` conversion keeps the low 32 bits), so an absolute
expiration at the 2106 boundary wraps: the entry set at time 1 with TTL
2^32 - 1 expires one second after the one set at time 0 with the same TTL,
yet stores expiration 0 and is sorted first in the index, inverting the
comparison. -/
theorem getExp_wraps_modulo_2_32 :
    (∀ (now : ℕ) (ttl : ℤ),
      (getExp now ttl : ℤ) = ((now : ℤ) + ttl) % 4294967296) ∧
    getExp 0 4294967295 = 4294967295 ∧
    getExp 1 4294967295 = 0 ∧
    getExp 1 4294967295 < getExp 0 4294967295 ∧
    sample0.Set 0 "a" "x" [4294967295] = .ok w1 ∧
    w1.Set 1 "b" "y" [4294967295] = .ok w2 ∧
    w2.ttlHK = ["b", "a"] ∧ w2.expOf "b" < w2.expOf "a" := by
  refine ⟨?_, rfl, rfl, by decide, rfl, rfl, rfl, by decide⟩
  intro now ttl
  unfold getExp
  rw [Int.toNat_of_nonneg (Int.emod_nonneg _ (by norm_num))]
